import Mathlib

/-!
Verification development for the VFS2 archive codec (`vfs2.py`).

The Python source is shallowly embedded: byte streams become an explicit
`ByteStream` structure (a byte list plus a cursor), Python exceptions become
`Except VfsErr`, Python `int` becomes `Int` (with the 32-bit range checks of
`int.to_bytes` made explicit), and the external `zlib` compressor and
decompressor become function parameters of the pack and unpack engines.
Filesystem effects are modelled by the list of (path, bytes) writes the
unpack engine performs and by a lookup function handed to the pack engine.
-/

/-- Set of failures the Python code can raise: `ValueError` on a bad magic
tag, `UnicodeDecodeError` / `UnicodeEncodeError` on non-ASCII names,
`OverflowError` from `int.to_bytes` on out-of-range values, `IndexError`
on a bad table reference, a filesystem error on a missing input file, and
`zlib.error` on corrupt compressed data. -/
inductive VfsErr where
  | badMagic
  | decodeErr
  | encodeErr
  | overflow
  | indexErr
  | ioErr
  | zlibErr
deriving DecidableEq, Repr

/-- Directory record of the archive (`class VfsDir`, vfs2.py lines 12-18).
All fields are Python ints; `parent` and `from_dir` are serialized signed. -/
structure VfsDir where
  hash : Int
  id : Int
  parent : Int
  from_dir : Int
  from_file : Int
deriving DecidableEq, Repr

/-- File record of the archive (`class VfsFile`, vfs2.py lines 20-27). -/
structure VfsFile where
  hash : Int
  id : Int
  type : Int
  dir : Int
  offset : Int
  size : Int
deriving DecidableEq, Repr

/-- Parsed contents of an archive: the tuple
`(dirs, files, blob, fnames, dnames)` returned by `read_vfs`. -/
structure Vfs where
  dirs : List VfsDir
  files : List VfsFile
  blob : List Nat
  fnames : List String
  dnames : List String
deriving DecidableEq, Repr

/-- Little-endian 4-byte encoding of a natural number below 2^32, as
produced by `int.to_bytes(4, 'little')`. -/
def toLEu (n : Nat) : List Nat :=
  [n % 256, n / 256 % 256, n / 65536 % 256, n / 16777216 % 256]

/-- Little-endian unsigned interpretation of a byte list, as computed by
`int.from_bytes(bs, 'little')` (0 on the empty list). -/
def fromLEu : List Nat → Nat
  | [] => 0
  | b :: bs => b + 256 * fromLEu bs

/-- Little-endian signed interpretation of a byte list, as computed by
`int.from_bytes(bs, 'little', signed=True)`. -/
def fromLEs (bs : List Nat) : Int :=
  if 2 * fromLEu bs < 256 ^ bs.length then (fromLEu bs : Int)
  else (fromLEu bs : Int) - (256 ^ bs.length : Nat)

/-- Python list indexing `l[i]`: a negative index counts from the end;
`none` models the `IndexError` raised when the index is out of range. -/
def pyGet {α : Type} (l : List α) (i : Int) : Option α :=
  if 0 ≤ i then l[i.toNat]?
  else if 0 ≤ i + l.length then l[(i + l.length).toNat]? else none

/-- Normalisation of one slice bound to an absolute position, per Python
slice semantics (negative bounds count from the end, bounds clamp). -/
def pyBound (len : Nat) (i : Int) : Nat :=
  if i < 0 then (i + len).toNat else min i.toNat len

/-- Python slice `l[a:b]`. -/
def pySlice {α : Type} (l : List α) (a b : Int) : List α :=
  (l.take (pyBound l.length b)).drop (pyBound l.length a)

/-- Python slice `l[a:]` (no stop bound). -/
def pyDrop {α : Type} (l : List α) (a : Int) : List α :=
  l.drop (pyBound l.length a)

/-- Byte stream with a read cursor, modelling the Python binary file
object handed to the codec. -/
structure ByteStream where
  data : List Nat
  pos : Nat
deriving DecidableEq, Repr

/-- Python `stream.read(n)`: returns at most `n` bytes from the cursor and
advances it; a negative `n` reads everything up to end of stream. -/
def readBytes (s : ByteStream) (n : Int) : List Nat × ByteStream :=
  if n < 0 then (s.data.drop s.pos, ⟨s.data, s.data.length⟩)
  else ((s.data.drop s.pos).take n.toNat,
        ⟨s.data, min (s.pos + n.toNat) s.data.length⟩)

/-- Bytes of the literal magic tag `b'VFS2'`. -/
def magicBytes : List Nat := [86, 70, 83, 50]

/-- Embeds `read_magic` (vfs2.py lines 30-31): reads 4 bytes and compares
them with the magic tag. -/
def read_magic (s : ByteStream) : Bool × ByteStream :=
  let r := readBytes s 4
  (decide (r.1 = magicBytes), r.2)

/-- Embeds `read_int` (vfs2.py lines 36-37): reads 4 bytes and interprets
them little-endian, signed or unsigned per the flag.  Note that Python
`stream.read(4)` simply returns fewer bytes near end of stream and
`int.from_bytes` accepts any length, so this never fails. -/
def read_int (s : ByteStream) (signed : Bool) : Int × ByteStream :=
  let r := readBytes s 4
  (if signed then fromLEs r.1 else (fromLEu r.1 : Int), r.2)

/-- Decoding of a byte list as ASCII (`bytes.decode('ascii')`); fails on
any byte of value 128 or above. -/
def decodeAscii (bs : List Nat) : Except VfsErr String :=
  if bs.all (fun b => b < 128) then .ok (String.mk (bs.map Char.ofNat))
  else .error .decodeErr

/-- Embeds `read_str` (vfs2.py lines 42-44): a 4-byte unsigned length
followed by that many ASCII bytes. -/
def read_str (s : ByteStream) : Except VfsErr String × ByteStream :=
  let r := read_int s false
  let r2 := readBytes r.2 r.1
  (decodeAscii r2.1, r2.2)

/-- Embeds `read_dir` (vfs2.py lines 50-56). -/
def read_dir (s : ByteStream) : VfsDir × ByteStream :=
  let r1 := read_int s false
  let r2 := read_int r1.2 false
  let r3 := read_int r2.2 true
  let r4 := read_int r3.2 true
  let r5 := read_int r4.2 false
  (⟨r1.1, r2.1, r3.1, r4.1, r5.1⟩, r5.2)

/-- Embeds `read_file` (vfs2.py lines 65-72). -/
def read_file (s : ByteStream) : VfsFile × ByteStream :=
  let r1 := read_int s false
  let r2 := read_int r1.2 false
  let r3 := read_int r2.2 false
  let r4 := read_int r3.2 false
  let r5 := read_int r4.2 false
  let r6 := read_int r5.2 false
  (⟨r1.1, r2.1, r3.1, r4.1, r5.1, r6.1⟩, r6.2)

/-- Loop `for _ in range(n): dirs.append(read_dir(vfs))`. -/
def readDirs : Nat → ByteStream → List VfsDir × ByteStream
  | 0, s => ([], s)
  | n + 1, s =>
    let r := read_dir s
    let rs := readDirs n r.2
    (r.1 :: rs.1, rs.2)

/-- Loop `for _ in range(n): files.append(read_file(vfs))`. -/
def readFiles : Nat → ByteStream → List VfsFile × ByteStream
  | 0, s => ([], s)
  | n + 1, s =>
    let r := read_file s
    let rs := readFiles n r.2
    (r.1 :: rs.1, rs.2)

/-- Loop `for i in range(n): names.append(read_str(vfs))`; a decode
failure aborts the loop like the Python exception would. -/
def readStrings : Nat → ByteStream → Except VfsErr (List String) × ByteStream
  | 0, s => (.ok [], s)
  | n + 1, s =>
    match read_str s with
    | (.ok str, s1) =>
      match readStrings n s1 with
      | (.ok l, s2) => (.ok (str :: l), s2)
      | (.error e, s2) => (.error e, s2)
    | (.error e, s1) => (.error e, s1)

/-- Embeds the blob read of `read_vfs` (vfs2.py line 95):
`blob = vfs.read(read_int(vfs) - vfs.tell())` where `tell` is taken after
the 4-byte end-offset field has been consumed. -/
def readBlob (s : ByteStream) : List Nat × ByteStream :=
  let r := read_int s false
  readBytes r.2 (r.1 - (r.2.pos : Int))

/-- Embeds `read_vfs` (vfs2.py lines 82-101).  The returned stream is the
state of the file object at the moment `read_vfs` returns or raises. -/
def read_vfs (s : ByteStream) : Except VfsErr Vfs × ByteStream :=
  let m := read_magic s
  if !m.1 then (.error .badMagic, m.2)
  else
    let nd := read_int m.2 false
    let ds := readDirs nd.1.toNat nd.2
    let nf := read_int ds.2 false
    let fs := readFiles nf.1.toNat nf.2
    let bl := readBlob fs.2
    let nfn := read_int bl.2 false
    match readStrings nfn.1.toNat nfn.2 with
    | (.error e, s8) => (.error e, s8)
    | (.ok fnames, s8) =>
      match read_int s8 false with
      | (ndn, s9) =>
        match readStrings ndn.toNat s9 with
        | (.error e, s10) => (.error e, s10)
        | (.ok dnames, s10) =>
          (.ok ⟨ds.1, fs.1, bl.1, fnames, dnames⟩, s10)

/-- Embeds `write_int` (vfs2.py lines 39-40): `value.to_bytes(4, 'little',
signed=signed)`, which raises `OverflowError` when the value does not fit
the requested 32-bit range. -/
def write_int (v : Int) (signed : Bool) : Except VfsErr (List Nat) :=
  if signed then
    if -2147483648 ≤ v ∧ v < 2147483648 then .ok (toLEu (v % 4294967296).toNat)
    else .error .overflow
  else
    if 0 ≤ v ∧ v < 4294967296 then .ok (toLEu v.toNat)
    else .error .overflow

/-- Encoding of a string as ASCII (`s.encode('ascii')`); fails on any
character of code point 128 or above. -/
def encodeAscii (str : String) : Except VfsErr (List Nat) :=
  if str.data.all (fun c => c.toNat < 128) then .ok (str.data.map Char.toNat)
  else .error .encodeErr

/-- Embeds `write_str` (vfs2.py lines 46-48): the 4-byte length `len(s)`
followed by the ASCII encoding of `s`. -/
def write_str (str : String) : Except VfsErr (List Nat) := do
  let lb ← write_int str.length false
  let sb ← encodeAscii str
  .ok (lb ++ sb)

/-- Embeds `write_dir` (vfs2.py lines 58-63). -/
def write_dir (d : VfsDir) : Except VfsErr (List Nat) := do
  let b1 ← write_int d.hash false
  let b2 ← write_int d.id false
  let b3 ← write_int d.parent true
  let b4 ← write_int d.from_dir true
  let b5 ← write_int d.from_file false
  .ok (b1 ++ b2 ++ b3 ++ b4 ++ b5)

/-- Embeds `write_file` (vfs2.py lines 74-80). -/
def write_file (f : VfsFile) : Except VfsErr (List Nat) := do
  let b1 ← write_int f.hash false
  let b2 ← write_int f.id false
  let b3 ← write_int f.type false
  let b4 ← write_int f.dir false
  let b5 ← write_int f.offset false
  let b6 ← write_int f.size false
  .ok (b1 ++ b2 ++ b3 ++ b4 ++ b5 ++ b6)

/-- Serialization of a list of records, concatenating the per-element
bytes in order. -/
def writeList {α : Type} (w : α → Except VfsErr (List Nat)) :
    List α → Except VfsErr (List Nat)
  | [] => .ok []
  | x :: xs => do
    let b ← w x
    let bs ← writeList w xs
    .ok (b ++ bs)

/-- Embeds `write_vfs` (vfs2.py lines 103-118).  The blob end offset is
`len(blob) + vfs.tell() + 4` where `tell` at that point is
`4 + 4 + |dir bytes| + 4 + |file bytes|`; the count written before the
`fnames` table is `len(files)` (line 113) and the count written before
the `dnames` table is `len(dirs)` (line 116). -/
def write_vfs (dirs : List VfsDir) (files : List VfsFile) (blob : List Nat)
    (fnames dnames : List String) : Except VfsErr (List Nat) := do
  let cd ← write_int dirs.length false
  let db ← writeList write_dir dirs
  let cf ← write_int files.length false
  let fb ← writeList write_file files
  let eb ← write_int (blob.length + (4 + 4 + db.length + 4 + fb.length) + 4) false
  let cf2 ← write_int files.length false
  let fnb ← writeList write_str fnames
  let cd2 ← write_int dirs.length false
  let dnb ← writeList write_str dnames
  .ok (magicBytes ++ cd ++ db ++ cf ++ fb ++ eb ++ blob ++ cf2 ++ fnb ++ cd2 ++ dnb)

/-- Embeds `build_path` (vfs2.py lines 120-123) with an explicit recursion
budget: `none` models either an `IndexError` on an out-of-range `parent`
or `id` reference or the non-termination of the Python recursion on a
cyclic parent chain (an acyclic chain of `k` directories needs `fuel ≥ k`,
and the engines pass `fuel = dirs.length`, which suffices for every
terminating run of the Python original). -/
def build_path : Nat → List VfsDir → List String → VfsDir → Option (List String)
  | 0, _, _, _ => none
  | fuel + 1, dirs, dnames, d =>
    if d.parent = -1 then (pyGet dnames d.id).map (fun nm => [nm])
    else do
      let pd ← pyGet dirs d.parent
      let pp ← build_path fuel dirs dnames pd
      let nm ← pyGet dnames d.id
      pure (pp ++ [nm])

/-- Conversion of a Python lookup that can raise to `Except`. -/
def optErr {α : Type} (e : VfsErr) : Option α → Except VfsErr α
  | some a => .ok a
  | none => .error e

/-- Per-file payload decoding of the unpack engine (vfs2.py lines
131-134): when `type` is any nonzero value the first 4 bytes of the slice
are the little-endian uncompressed size and the rest is decompressed;
when `type == 0` the slice is used verbatim.  `zd payload bufsize` models
`zlib.decompress(payload, bufsize=bufsize)`. -/
def unpackPayload (zd : List Nat → Nat → Except VfsErr (List Nat))
    (t : Int) (data : List Nat) : Except VfsErr (List Nat) :=
  if t ≠ 0 then zd (pyDrop data 4) (fromLEu (pySlice data 0 4))
  else .ok data

/-- Compression level constant (vfs2.py line 9). -/
def VFS_COMPRESSION_LEVEL : Nat := 9

/-- Per-file payload encoding of the pack engine (vfs2.py lines 152-154):
when `type == 2` the stored payload is the 4-byte little-endian original
length followed by the compressed bytes (`len(data).to_bytes(4, 'little')`
raises `OverflowError` at 2^32); for every other `type` the raw bytes are
stored unchanged.  `zc level data` models `zlib.compress(data, level)`. -/
def packPayload (zc : Nat → List Nat → List Nat) (t : Int) (data : List Nat) :
    Except VfsErr (List Nat) :=
  if t = 2 then
    if data.length < 4294967296 then
      .ok (toLEu data.length ++ zc VFS_COMPRESSION_LEVEL data)
    else .error .overflow
  else .ok data

/-- Sort key of the pack loop: `sorted(ofiles, key=lambda f: f.id)` is a
stable sort by `id`, which on index-tagged records is exactly the
lexicographic order on `(id, original position)`. -/
def fileLe (a b : Nat × VfsFile) : Bool :=
  if a.2.id = b.2.id then decide (a.1 ≤ b.1) else decide (a.2.id < b.2.id)

/-- Pack loop (vfs2.py lines 148-159) over the id-sorted, index-tagged
file records: for each file resolve its path, read its bytes from the
filesystem (`none` models the I/O error on a missing file), encode the
payload, assign the running `offset` and the payload `size`, and append
the payload to the blob.  Returns the updated records (still tagged with
their original table positions) and the rebuilt blob. -/
def packLoop (zc : Nat → List Nat → List Nat) (dirs : List VfsDir)
    (dnames fnames : List String) (fs : List String → Option (List Nat)) :
    List (Nat × VfsFile) → Nat → Except VfsErr (List (Nat × VfsFile) × List Nat)
  | [], _ => .ok ([], [])
  | (i, f) :: rest, off => do
    let dd ← optErr .indexErr (pyGet dirs f.dir)
    let dp ← optErr .indexErr (build_path dirs.length dirs dnames dd)
    let nm ← optErr .indexErr (pyGet fnames f.id)
    let data ← optErr .ioErr (fs (dp ++ [nm]))
    let payload ← packPayload zc f.type data
    let r ← packLoop zc dirs dnames fnames fs rest (off + payload.length)
    .ok ((i, { f with offset := (off : Int), size := (payload.length : Int) })
          :: r.1, payload ++ r.2)

/-- Insertion of an index-tagged record into a `fileLe`-sorted list,
before the first strictly greater element. -/
def insertLe (x : Nat × VfsFile) : List (Nat × VfsFile) → List (Nat × VfsFile)
  | [] => [x]
  | y :: ys => if fileLe x y then x :: y :: ys else y :: insertLe x ys

/-- Insertion sort by `fileLe`.  Since `fileLe` is a total antisymmetric
order on index-tagged records (ties on `id` are broken by the original
position), this produces the unique `fileLe`-sorted permutation — which
is exactly the result of Python's stable `sorted(key=lambda f: f.id)`. -/
def sortLe : List (Nat × VfsFile) → List (Nat × VfsFile)
  | [] => []
  | x :: xs => insertLe x (sortLe xs)

/-- Embeds `compress` (vfs2.py lines 138-162), the pack engine: the
directory table, name tables and file records are copied verbatim from
the input archive; the files are processed in ascending `id` order
(stable, hence the lexicographic sort on index-tagged records); the
mutation of the shared record objects is modelled by updating, at each
original table position, the record to its processed version; finally
the new archive is serialized with `write_vfs` (lines 161-162), whose
failures — `OverflowError` when a recomputed offset, size, or the blob
end offset reaches 2^32, or a non-ASCII name — abort the pack exactly as
in Python.  The parsed archive is returned for analysis; the bytes
written to the output file are `write_vfs` of its components.  `fs` is
the filesystem the bytes are read from. -/
def compress (zc : Nat → List Nat → List Nat) (v : Vfs)
    (fs : List String → Option (List Nat)) : Except VfsErr Vfs := do
  let sortedFiles := sortLe v.files.enum
  let r ← packLoop zc v.dirs v.dnames v.fnames fs sortedFiles 0
  let ofiles := v.files.enum.map
    (fun p => (((r.1.find? (fun q => decide (q.1 = p.1))).map (·.2)).getD p.2))
  let _bytes ← write_vfs v.dirs ofiles r.2 v.fnames v.dnames
  .ok ⟨v.dirs, ofiles, r.2, v.fnames, v.dnames⟩

/-- Trivial compressor model: identity, ignoring the level.  Together with
`zdId` it satisfies the compressor round-trip contract that the real zlib
pair satisfies. -/
def zcId : Nat → List Nat → List Nat := fun _ data => data

/-- Trivial decompressor model: identity, ignoring the buffer-size hint
(zlib also treats `bufsize` as a hint only). -/
def zdId : List Nat → Nat → Except VfsErr (List Nat) := fun data _ => .ok data

/-- Root directory record used by the concrete examples. -/
def exDirRoot : VfsDir := ⟨0, 0, -1, -1, 0⟩

/-- Directory table of the 3-level chain root → mid → leaf. -/
def chainDirs : List VfsDir := [⟨0, 0, -1, -1, 0⟩, ⟨0, 1, 0, -1, 0⟩, ⟨0, 2, 1, -1, 0⟩]

/-- Directory-name table of the 3-level chain. -/
def chainNames : List String := ["root", "mid", "leaf"]

/-- Byte stream whose blob end offset (0) is smaller than the stream
position after that field (16), making the computed blob length negative. -/
def cex6data : List Nat := magicBytes ++ toLEu 0 ++ toLEu 0 ++ toLEu 0 ++ [7, 7, 7]

/-- Archive with two file records but a single file-name entry, exercising
the reuse of the file count as the name-table length prefix. -/
def c2bytes : List Nat :=
  [86, 70, 83, 50, 0, 0, 0, 0, 2, 0, 0, 0, 0, 0, 0, 0, 0, 0, 0, 0, 0, 0, 0, 0,
   0, 0, 0, 0, 0, 0, 0, 0, 0, 0, 0, 0, 0, 0, 0, 0, 0, 0, 0, 0, 0, 0, 0, 0, 0,
   0, 0, 0, 0, 0, 0, 0, 0, 0, 0, 0, 64, 0, 0, 0, 2, 0, 0, 0, 1, 0, 0, 0, 97,
   0, 0, 0, 0]

/-- Serialized single-file archive used as the round-trip witness. -/
def c10bytes : List Nat :=
  [86, 70, 83, 50, 1, 0, 0, 0, 0, 0, 0, 0, 0, 0, 0, 0, 255, 255, 255, 255,
   255, 255, 255, 255, 0, 0, 0, 0, 1, 0, 0, 0, 0, 0, 0, 0, 0, 0, 0, 0, 0, 0,
   0, 0, 0, 0, 0, 0, 0, 0, 0, 0, 1, 0, 0, 0, 61, 0, 0, 0, 1, 1, 0, 0, 0, 1,
   0, 0, 0, 102, 1, 0, 0, 0, 1, 0, 0, 0, 100]

/-- Archive with two file records sharing the same id, used against the
offset-equals-sum-of-smaller-ids claim. -/
def dupIdVfs : Vfs :=
  ⟨[exDirRoot], [⟨0, 0, 0, 0, 0, 0⟩, ⟨0, 0, 0, 0, 0, 0⟩], [], ["n"], ["d"]⟩

/-- Filesystem for the duplicate-id example: a single 3-byte file. -/
def dupFs : List String → Option (List Nat) :=
  fun p => if p = ["d", "n"] then some [1, 2, 3] else none

/-- Decidable equality of `Except` results, so that concrete runs of the
codec can be checked by `decide`. -/
instance {e a : Type} [DecidableEq e] [DecidableEq a] : DecidableEq (Except e a) :=
  fun x y =>
    match x, y with
    | .ok v, .ok w =>
      if h : v = w then .isTrue (by rw [h])
      else .isFalse (by intro hc; cases hc; exact h rfl)
    | .error v, .error w =>
      if h : v = w then .isTrue (by rw [h])
      else .isFalse (by intro hc; cases hc; exact h rfl)
    | .ok _, .error _ => .isFalse (by intro hc; cases hc)
    | .error _, .ok _ => .isFalse (by intro hc; cases hc)

/-- Payload computation of one pack-loop iteration (vfs2.py lines
150-154), without the offset bookkeeping: resolve the file path, read the
bytes from the filesystem, and encode the payload. -/
def packOneData (zc : Nat → List Nat → List Nat) (dirs : List VfsDir)
    (dnames fnames : List String) (fs : List String → Option (List Nat))
    (f : VfsFile) : Except VfsErr (List Nat) := do
  let dd ← optErr .indexErr (pyGet dirs f.dir)
  let dp ← optErr .indexErr (build_path dirs.length dirs dnames dd)
  let nm ← optErr .indexErr (pyGet fnames f.id)
  let data ← optErr .ioErr (fs (dp ++ [nm]))
  packPayload zc f.type data

/-- Specification of the record updates the pack loop performs, given the
payload of each record: offsets accumulate the payload lengths in
processing order. -/
def packOuts (pay : VfsFile → List Nat) :
    List (Nat × VfsFile) → Nat → List (Nat × VfsFile)
  | [], _ => []
  | (i, f) :: rest, off =>
    (i, { f with offset := (off : Int), size := ((pay f).length : Int) }) ::
      packOuts pay rest (off + (pay f).length)

/-- Specification of the blob the pack loop builds: the concatenation of
the payloads in processing order. -/
def packBlob (pay : VfsFile → List Nat) : List (Nat × VfsFile) → List Nat
  | [] => []
  | (_, f) :: rest => pay f ++ packBlob pay rest

/-! ## Basic lemmas about the primitive codec -/

theorem toLEu_length (n : Nat) : (toLEu n).length = 4 := rfl

theorem fromLEu_toLEu {n : Nat} (h : n < 4294967296) : fromLEu (toLEu n) = n := by
  simp only [toLEu, fromLEu]
  omega

theorem fromLEs_toLEu {v : Int} (h1 : -2147483648 ≤ v) (h2 : v < 2147483648) :
    fromLEs (toLEu (v % 4294967296).toNat) = v := by
  have hu : (v % 4294967296).toNat < 4294967296 := by omega
  have h4 : (toLEu (v % 4294967296).toNat).length = 4 := toLEu_length _
  rw [fromLEs, fromLEu_toLEu hu, h4]
  have : (256 : Nat) ^ 4 = 4294967296 := by norm_num
  rw [this]
  split <;> omega

theorem readBytes_at {data bs rest : List Nat} {pos : Nat}
    (hpos : pos ≤ data.length) (h : data.drop pos = bs ++ rest) :
    readBytes ⟨data, pos⟩ (bs.length : Int) = (bs, ⟨data, pos + bs.length⟩) := by
  have hlen : data.length - pos = bs.length + rest.length := by
    have := congrArg List.length h
    simpa using this
  have hp : pos + bs.length ≤ data.length := by omega
  clear hlen
  simp only [readBytes]
  rw [if_neg (by omega)]
  simp only [h, Int.toNat_natCast, List.take_left]
  rw [min_eq_left hp]

theorem write_int_ok_length {v : Int} {sgn : Bool} {bs : List Nat}
    (hw : write_int v sgn = .ok bs) : bs.length = 4 := by
  unfold write_int at hw
  split at hw <;> split at hw <;> cases hw <;> rfl

theorem pos_le_of_drop {data bs rest : List Nat} {pos : Nat}
    (h : data.drop pos = bs ++ rest) (hne : bs.length ≠ 0) : pos ≤ data.length := by
  have := congrArg List.length h
  simp only [List.length_drop, List.length_append] at this
  omega

theorem drop_step {data b rest : List Nat} {pos : Nat}
    (h : data.drop pos = b ++ rest) :
    data.drop (pos + b.length) = rest := by
  rw [← List.drop_drop, h, List.drop_left]

theorem read_int_at {data bs rest : List Nat} {pos : Nat} {v : Int} {sgn : Bool}
    (hw : write_int v sgn = .ok bs)
    (h : data.drop pos = bs ++ rest) :
    read_int ⟨data, pos⟩ sgn = (v, ⟨data, pos + 4⟩) := by
  have hpos : pos ≤ data.length :=
    pos_le_of_drop h (by rw [write_int_ok_length hw]; omega)
  unfold write_int at hw
  cases sgn with
  | false =>
    rw [if_neg (by simp)] at hw
    split at hw
    · rename_i hr
      have hbs : bs = toLEu v.toNat := by
        cases hw; rfl
      subst hbs
      have h4 : ((4:Nat) : Int) = ((toLEu v.toNat).length : Int) := by rw [toLEu_length]
      simp only [read_int]
      rw [show (4 : Int) = ((toLEu v.toNat).length : Int) from h4, readBytes_at hpos h]
      simp only [toLEu_length]
      have : fromLEu (toLEu v.toNat) = v.toNat := fromLEu_toLEu (by omega)
      rw [this]
      simp only [Bool.false_eq_true, if_false]
      congr 1
      omega
    · cases hw
  | true =>
    rw [if_pos rfl] at hw
    split at hw
    · rename_i hr
      have hbs : bs = toLEu (v % 4294967296).toNat := by
        cases hw; rfl
      subst hbs
      simp only [read_int]
      have h4 : ((4:Nat) : Int) = ((toLEu (v % 4294967296).toNat).length : Int) := by
        rw [toLEu_length]
      rw [show (4 : Int) = ((toLEu (v % 4294967296).toNat).length : Int) from h4,
          readBytes_at hpos h]
      simp only [toLEu_length, if_pos]
      rw [fromLEs_toLEu hr.1 hr.2]
    · cases hw

theorem except_bind_ok {α β : Type} {x : Except VfsErr α} {f : α → Except VfsErr β}
    {b : β} (h : (x >>= f) = .ok b) : ∃ a, x = .ok a ∧ f a = .ok b := by
  cases x with
  | ok a => exact ⟨a, rfl, h⟩
  | error e => exact absurd h (by simp [Bind.bind, Except.bind])

theorem writeList_cons_ok {α : Type} {w : α → Except VfsErr (List Nat)} {x : α}
    {xs : List α} {bs : List Nat} (h : writeList w (x :: xs) = .ok bs) :
    ∃ b brest, w x = .ok b ∧ writeList w xs = .ok brest ∧ bs = b ++ brest := by
  unfold writeList at h
  obtain ⟨b, hb, h2⟩ := except_bind_ok h
  obtain ⟨brest, hbrest, h3⟩ := except_bind_ok h2
  cases h3
  exact ⟨b, brest, hb, hbrest, rfl⟩

theorem decodeAscii_encodeAscii {str : String} {bs : List Nat}
    (hw : encodeAscii str = .ok bs) :
    decodeAscii bs = .ok str ∧ bs.length = str.length := by
  unfold encodeAscii at hw
  split at hw
  · rename_i hall
    cases hw
    constructor
    · unfold decodeAscii
      rw [if_pos]
      · congr 1
        rw [List.map_map]
        conv_rhs => rw [show str = String.mk str.data from rfl]
        congr 1
        rw [show str.data.map (Char.ofNat ∘ Char.toNat) = str.data.map id from ?_,
            List.map_id]
        apply List.map_congr_left
        intro c _
        exact Char.ofNat_toNat c
      · simp only [List.all_eq_true, List.mem_map, decide_eq_true_eq] at hall ⊢
        rintro b ⟨c, hc, rfl⟩
        exact hall c hc
    · rw [List.length_map]
      rfl
  · cases hw

theorem read_str_at {data bs rest : List Nat} {pos : Nat} {str : String}
    (hw : write_str str = .ok bs) (h : data.drop pos = bs ++ rest) :
    read_str ⟨data, pos⟩ = (.ok str, ⟨data, pos + bs.length⟩) := by
  unfold write_str at hw
  obtain ⟨lb, hlb, h2⟩ := except_bind_ok hw
  obtain ⟨sb, hsb, h3⟩ := except_bind_ok h2
  cases h3
  obtain ⟨hdec, hsblen⟩ := decodeAscii_encodeAscii hsb
  have h1 : data.drop pos = lb ++ (sb ++ rest) := by rw [h, List.append_assoc]
  have e1 := read_int_at hlb h1
  have hlb4 : lb.length = 4 := write_int_ok_length hlb
  have h2d : data.drop (pos + 4) = sb ++ rest := by
    have := drop_step h1
    rwa [hlb4] at this
  have hposd : pos + 4 ≤ data.length := by
    have := congrArg List.length h1
    simp only [List.length_drop, List.length_append, hlb4] at this
    omega
  have hcast : ((str.length : Nat) : Int) = ((sb.length : Nat) : Int) := by
    rw [hsblen]
  unfold read_str
  rw [e1]
  simp only
  rw [hcast, readBytes_at hposd h2d, hdec]
  have : (lb ++ sb).length = 4 + sb.length := by
    rw [List.length_append, hlb4]
  rw [this, ← Nat.add_assoc]

theorem read_dir_at {data bs rest : List Nat} {pos : Nat} {d : VfsDir}
    (hw : write_dir d = .ok bs) (h : data.drop pos = bs ++ rest) :
    read_dir ⟨data, pos⟩ = (d, ⟨data, pos + 20⟩) ∧ bs.length = 20 := by
  unfold write_dir at hw
  obtain ⟨b1, hb1, hw⟩ := except_bind_ok hw
  obtain ⟨b2, hb2, hw⟩ := except_bind_ok hw
  obtain ⟨b3, hb3, hw⟩ := except_bind_ok hw
  obtain ⟨b4, hb4, hw⟩ := except_bind_ok hw
  obtain ⟨b5, hb5, hw⟩ := except_bind_ok hw
  cases hw
  have l1 := write_int_ok_length hb1
  have l2 := write_int_ok_length hb2
  have l3 := write_int_ok_length hb3
  have l4 := write_int_ok_length hb4
  have l5 := write_int_ok_length hb5
  have h1 : data.drop pos = b1 ++ (b2 ++ (b3 ++ (b4 ++ (b5 ++ rest)))) := by
    rw [h]; simp [List.append_assoc]
  have h2 : data.drop (pos + 4) = b2 ++ (b3 ++ (b4 ++ (b5 ++ rest))) := by
    have := drop_step h1; rwa [l1] at this
  have h3 : data.drop (pos + 4 + 4) = b3 ++ (b4 ++ (b5 ++ rest)) := by
    have := drop_step h2; rwa [l2] at this
  have h4 : data.drop (pos + 4 + 4 + 4) = b4 ++ (b5 ++ rest) := by
    have := drop_step h3; rwa [l3] at this
  have h5 : data.drop (pos + 4 + 4 + 4 + 4) = b5 ++ rest := by
    have := drop_step h4; rwa [l4] at this
  have e1 := read_int_at hb1 h1
  have e2 := read_int_at hb2 h2
  have e3 := read_int_at hb3 h3
  have e4 := read_int_at hb4 h4
  have e5 := read_int_at hb5 h5
  constructor
  · unfold read_dir
    rw [e1]
    simp only
    rw [e2]
    simp only
    rw [e3]
    simp only
    rw [e4]
    simp only
    rw [e5]
  · simp only [List.length_append, l1, l2, l3, l4, l5]

theorem read_file_at {data bs rest : List Nat} {pos : Nat} {f : VfsFile}
    (hw : write_file f = .ok bs) (h : data.drop pos = bs ++ rest) :
    read_file ⟨data, pos⟩ = (f, ⟨data, pos + 24⟩) ∧ bs.length = 24 := by
  unfold write_file at hw
  obtain ⟨b1, hb1, hw⟩ := except_bind_ok hw
  obtain ⟨b2, hb2, hw⟩ := except_bind_ok hw
  obtain ⟨b3, hb3, hw⟩ := except_bind_ok hw
  obtain ⟨b4, hb4, hw⟩ := except_bind_ok hw
  obtain ⟨b5, hb5, hw⟩ := except_bind_ok hw
  obtain ⟨b6, hb6, hw⟩ := except_bind_ok hw
  cases hw
  have l1 := write_int_ok_length hb1
  have l2 := write_int_ok_length hb2
  have l3 := write_int_ok_length hb3
  have l4 := write_int_ok_length hb4
  have l5 := write_int_ok_length hb5
  have l6 := write_int_ok_length hb6
  have h1 : data.drop pos = b1 ++ (b2 ++ (b3 ++ (b4 ++ (b5 ++ (b6 ++ rest))))) := by
    rw [h]; simp [List.append_assoc]
  have h2 : data.drop (pos + 4) = b2 ++ (b3 ++ (b4 ++ (b5 ++ (b6 ++ rest)))) := by
    have := drop_step h1; rwa [l1] at this
  have h3 : data.drop (pos + 4 + 4) = b3 ++ (b4 ++ (b5 ++ (b6 ++ rest))) := by
    have := drop_step h2; rwa [l2] at this
  have h4 : data.drop (pos + 4 + 4 + 4) = b4 ++ (b5 ++ (b6 ++ rest)) := by
    have := drop_step h3; rwa [l3] at this
  have h5 : data.drop (pos + 4 + 4 + 4 + 4) = b5 ++ (b6 ++ rest) := by
    have := drop_step h4; rwa [l4] at this
  have h6 : data.drop (pos + 4 + 4 + 4 + 4 + 4) = b6 ++ rest := by
    have := drop_step h5; rwa [l5] at this
  have e1 := read_int_at hb1 h1
  have e2 := read_int_at hb2 h2
  have e3 := read_int_at hb3 h3
  have e4 := read_int_at hb4 h4
  have e5 := read_int_at hb5 h5
  have e6 := read_int_at hb6 h6
  constructor
  · unfold read_file
    rw [e1]
    simp only
    rw [e2]
    simp only
    rw [e3]
    simp only
    rw [e4]
    simp only
    rw [e5]
    simp only
    rw [e6]
  · simp only [List.length_append, l1, l2, l3, l4, l5, l6]

theorem readDirs_at {dirs : List VfsDir} {data bs rest : List Nat} {pos : Nat}
    (hw : writeList write_dir dirs = .ok bs) (h : data.drop pos = bs ++ rest) :
    readDirs dirs.length ⟨data, pos⟩ = (dirs, ⟨data, pos + bs.length⟩) := by
  induction dirs generalizing bs pos rest with
  | nil =>
    cases hw
    simp [readDirs]
  | cons d ds ih =>
    obtain ⟨b, brest, hb, hbrest, rfl⟩ := writeList_cons_ok hw
    have h1 : data.drop pos = b ++ (brest ++ rest) := by
      rw [h, List.append_assoc]
    obtain ⟨e1, l1⟩ := read_dir_at hb h1
    have h2 : data.drop (pos + 20) = brest ++ rest := by
      have := drop_step h1; rwa [l1] at this
    have e2 := ih hbrest h2
    show readDirs (ds.length + 1) ⟨data, pos⟩ = _
    unfold readDirs
    rw [e1]
    simp only
    rw [e2]
    simp only [List.length_append, l1]
    congr 2
    omega

theorem readFiles_at {files : List VfsFile} {data bs rest : List Nat} {pos : Nat}
    (hw : writeList write_file files = .ok bs) (h : data.drop pos = bs ++ rest) :
    readFiles files.length ⟨data, pos⟩ = (files, ⟨data, pos + bs.length⟩) := by
  induction files generalizing bs pos rest with
  | nil =>
    cases hw
    simp [readFiles]
  | cons f fs ih =>
    obtain ⟨b, brest, hb, hbrest, rfl⟩ := writeList_cons_ok hw
    have h1 : data.drop pos = b ++ (brest ++ rest) := by
      rw [h, List.append_assoc]
    obtain ⟨e1, l1⟩ := read_file_at hb h1
    have h2 : data.drop (pos + 24) = brest ++ rest := by
      have := drop_step h1; rwa [l1] at this
    have e2 := ih hbrest h2
    show readFiles (fs.length + 1) ⟨data, pos⟩ = _
    unfold readFiles
    rw [e1]
    simp only
    rw [e2]
    simp only [List.length_append, l1]
    congr 2
    omega

theorem readStrings_at {names : List String} {data bs rest : List Nat} {pos : Nat}
    (hw : writeList write_str names = .ok bs) (h : data.drop pos = bs ++ rest) :
    readStrings names.length ⟨data, pos⟩ = (.ok names, ⟨data, pos + bs.length⟩) := by
  induction names generalizing bs pos rest with
  | nil =>
    cases hw
    simp [readStrings]
  | cons nm ns ih =>
    obtain ⟨b, brest, hb, hbrest, rfl⟩ := writeList_cons_ok hw
    have h1 : data.drop pos = b ++ (brest ++ rest) := by
      rw [h, List.append_assoc]
    have e1 := read_str_at hb h1
    have h2 : data.drop (pos + b.length) = brest ++ rest := drop_step h1
    have e2 := ih hbrest h2
    show readStrings (ns.length + 1) ⟨data, pos⟩ = _
    unfold readStrings
    rw [e1]
    dsimp only
    rw [e2]
    rw [show (b ++ brest).length = b.length + brest.length from List.length_append _ _,
        ← Nat.add_assoc]

theorem write_int_ok_unsigned {v : Int} {bs : List Nat}
    (hw : write_int v false = .ok bs) :
    bs = toLEu v.toNat ∧ 0 ≤ v ∧ v < 4294967296 := by
  unfold write_int at hw
  rw [if_neg (by simp)] at hw
  split at hw
  · rename_i hr
    cases hw
    exact ⟨rfl, hr.1, hr.2⟩
  · cases hw

theorem read_magic_at {data rest : List Nat} {pos : Nat}
    (h : data.drop pos = magicBytes ++ rest) :
    read_magic ⟨data, pos⟩ = (true, ⟨data, pos + 4⟩) := by
  have hpos : pos ≤ data.length := pos_le_of_drop h (by simp [magicBytes])
  have h4 : (4 : Int) = ((magicBytes.length : Nat) : Int) := by simp [magicBytes]
  unfold read_magic
  rw [h4, readBytes_at hpos h]
  simp [magicBytes]

theorem readStrings_ok_length {n : Nat} {s s2 : ByteStream} {l : List String}
    (h : readStrings n s = (.ok l, s2)) : l.length = n := by
  induction n generalizing s s2 l with
  | zero =>
    unfold readStrings at h
    cases h
    rfl
  | succ n ih =>
    unfold readStrings at h
    split at h
    · rename_i str s1 heq
      split at h
      · rename_i l1 s3 heq2
        cases h
        simp [ih heq2]
      · cases h
    · cases h

theorem write_vfs_ok_elim {dirs : List VfsDir} {files : List VfsFile}
    {blob : List Nat} {fnames dnames : List String} {out : List Nat}
    (hw : write_vfs dirs files blob fnames dnames = .ok out) :
    ∃ cd db cf fb eb cf2 fnb cd2 dnb,
      write_int dirs.length false = .ok cd ∧
      writeList write_dir dirs = .ok db ∧
      write_int files.length false = .ok cf ∧
      writeList write_file files = .ok fb ∧
      write_int (blob.length + (4 + 4 + db.length + 4 + fb.length) + 4) false = .ok eb ∧
      write_int files.length false = .ok cf2 ∧
      writeList write_str fnames = .ok fnb ∧
      write_int dirs.length false = .ok cd2 ∧
      writeList write_str dnames = .ok dnb ∧
      out = magicBytes ++ cd ++ db ++ cf ++ fb ++ eb ++ blob ++ cf2 ++ fnb ++ cd2 ++ dnb := by
  unfold write_vfs at hw
  obtain ⟨cd, hcd, hw⟩ := except_bind_ok hw
  obtain ⟨db, hdb, hw⟩ := except_bind_ok hw
  obtain ⟨cf, hcf, hw⟩ := except_bind_ok hw
  obtain ⟨fb, hfb, hw⟩ := except_bind_ok hw
  obtain ⟨eb, heb, hw⟩ := except_bind_ok hw
  obtain ⟨cf2, hcf2, hw⟩ := except_bind_ok hw
  obtain ⟨fnb, hfnb, hw⟩ := except_bind_ok hw
  obtain ⟨cd2, hcd2, hw⟩ := except_bind_ok hw
  obtain ⟨dnb, hdnb, hw⟩ := except_bind_ok hw
  cases hw
  exact ⟨cd, db, cf, fb, eb, cf2, fnb, cd2, dnb, hcd, hdb, hcf, hfb, heb, hcf2,
    hfnb, hcd2, hdnb, rfl⟩

theorem read_write_vfs {dirs : List VfsDir} {files : List VfsFile}
    {blob : List Nat} {fnames dnames : List String} {out : List Nat}
    (hw : write_vfs dirs files blob fnames dnames = .ok out)
    (hfn : fnames.length = files.length) (hdn : dnames.length = dirs.length) :
    read_vfs ⟨out, 0⟩ = (.ok ⟨dirs, files, blob, fnames, dnames⟩, ⟨out, out.length⟩) := by
  obtain ⟨cd, db, cf, fb, eb, cf2, fnb, cd2, dnb, hcd, hdb, hcf, hfb, heb, hcf2,
    hfnb, hcd2, hdnb, hout⟩ := write_vfs_ok_elim hw
  have lcd := write_int_ok_length hcd
  have lcf := write_int_ok_length hcf
  have leb := write_int_ok_length heb
  have lcf2 := write_int_ok_length hcf2
  have lcd2 := write_int_ok_length hcd2
  have h0 : out.drop 0 =
      magicBytes ++ (cd ++ (db ++ (cf ++ (fb ++ (eb ++ (blob ++ (cf2 ++ (fnb ++ (cd2 ++ (dnb ++ [])))))))))) := by
    rw [hout]
    simp [List.append_assoc]
  have hm := read_magic_at h0
  have h1 : out.drop 4 = cd ++ (db ++ (cf ++ (fb ++ (eb ++ (blob ++ (cf2 ++ (fnb ++ (cd2 ++ (dnb ++ []))))))))) := by
    have := drop_step h0
    rwa [show magicBytes.length = 4 from rfl, Nat.zero_add] at this
  have e1 := read_int_at hcd h1
  have h2 : out.drop (4 + 4) = db ++ (cf ++ (fb ++ (eb ++ (blob ++ (cf2 ++ (fnb ++ (cd2 ++ (dnb ++ [])))))))) := by
    have := drop_step h1
    rwa [lcd] at this
  have e2 := readDirs_at hdb h2
  have h3 : out.drop (4 + 4 + db.length) = cf ++ (fb ++ (eb ++ (blob ++ (cf2 ++ (fnb ++ (cd2 ++ (dnb ++ []))))))) :=
    drop_step h2
  have e3 := read_int_at hcf h3
  have h4 : out.drop (4 + 4 + db.length + 4) = fb ++ (eb ++ (blob ++ (cf2 ++ (fnb ++ (cd2 ++ (dnb ++ [])))))) := by
    have := drop_step h3
    rwa [lcf] at this
  have e4 := readFiles_at hfb h4
  have h5 : out.drop (4 + 4 + db.length + 4 + fb.length) = eb ++ (blob ++ (cf2 ++ (fnb ++ (cd2 ++ (dnb ++ []))))) :=
    drop_step h4
  have e5 := read_int_at heb h5
  have h6 : out.drop (4 + 4 + db.length + 4 + fb.length + 4) = blob ++ (cf2 ++ (fnb ++ (cd2 ++ (dnb ++ [])))) := by
    have := drop_step h5
    rwa [leb] at this
  have hpos6 : 4 + 4 + db.length + 4 + fb.length + 4 ≤ out.length := by
    have := congrArg List.length h6
    simp only [List.length_drop, List.length_append] at this
    omega
  have e6 : readBytes ⟨out, 4 + 4 + db.length + 4 + fb.length + 4⟩ ((blob.length : Nat) : Int) =
      (blob, ⟨out, 4 + 4 + db.length + 4 + fb.length + 4 + blob.length⟩) :=
    readBytes_at hpos6 h6
  have h7 : out.drop (4 + 4 + db.length + 4 + fb.length + 4 + blob.length) = cf2 ++ (fnb ++ (cd2 ++ (dnb ++ []))) :=
    drop_step h6
  have e7 := read_int_at hcf2 h7
  have h8 : out.drop (4 + 4 + db.length + 4 + fb.length + 4 + blob.length + 4) = fnb ++ (cd2 ++ (dnb ++ [])) := by
    have := drop_step h7
    rwa [lcf2] at this
  have e8' := readStrings_at hfnb h8
  have e8 : readStrings files.length ⟨out, 4 + 4 + db.length + 4 + fb.length + 4 + blob.length + 4⟩ =
      (.ok fnames, ⟨out, 4 + 4 + db.length + 4 + fb.length + 4 + blob.length + 4 + fnb.length⟩) := by
    rwa [hfn] at e8'
  have h9 : out.drop (4 + 4 + db.length + 4 + fb.length + 4 + blob.length + 4 + fnb.length) = cd2 ++ (dnb ++ []) :=
    drop_step h8
  have e9 := read_int_at hcd2 h9
  have h10 : out.drop (4 + 4 + db.length + 4 + fb.length + 4 + blob.length + 4 + fnb.length + 4) = dnb ++ [] := by
    have := drop_step h9
    rwa [lcd2] at this
  have e10' := readStrings_at hdnb h10
  have e10 : readStrings dirs.length ⟨out, 4 + 4 + db.length + 4 + fb.length + 4 + blob.length + 4 + fnb.length + 4⟩ =
      (.ok dnames, ⟨out, 4 + 4 + db.length + 4 + fb.length + 4 + blob.length + 4 + fnb.length + 4 + dnb.length⟩) := by
    rwa [hdn] at e10'
  have hlenout : out.length = 4 + 4 + db.length + 4 + fb.length + 4 + blob.length + 4 + fnb.length + 4 + dnb.length := by
    rw [hout]
    simp only [List.length_append, lcd, lcf, leb, lcf2, lcd2, show magicBytes.length = 4 from rfl]
  have hm2 : read_magic ⟨out, 0⟩ = (true, ⟨out, 4⟩) := hm
  have e6b : readBlob ⟨out, 4 + 4 + db.length + 4 + fb.length⟩ =
      (blob, ⟨out, 4 + 4 + db.length + 4 + fb.length + 4 + blob.length⟩) := by
    unfold readBlob
    rw [e5]
    dsimp only
    have harg : (↑blob.length + (4 + 4 + ↑db.length + 4 + ↑fb.length) + 4 : Int) -
        ((4 + 4 + db.length + 4 + fb.length + 4 : Nat) : Int) = ((blob.length : Nat) : Int) := by
      push_cast
      ring
    rw [harg]
    exact e6
  unfold read_vfs
  rw [hm2]
  rw [if_neg (by simp)]
  dsimp only
  rw [e1]
  dsimp only
  rw [Int.toNat_natCast, e2]
  dsimp only
  rw [e3]
  dsimp only
  rw [Int.toNat_natCast, e4]
  dsimp only
  rw [e6b]
  dsimp only
  rw [e7]
  dsimp only
  rw [Int.toNat_natCast, e8]
  dsimp only
  rw [e9]
  dsimp only
  rw [Int.toNat_natCast, e10]
  dsimp only
  rw [hlenout]

/-! ## Helper lemmas about slices of prefixed payloads -/

theorem pySlice_prefix4 (n : Nat) (y : List Nat) :
    pySlice (toLEu n ++ y) 0 4 = toLEu n := by
  unfold pySlice pyBound
  rw [if_neg (by norm_num), if_neg (by norm_num)]
  have hlen : (toLEu n ++ y).length = 4 + y.length := by
    simp [toLEu_length]
  rw [hlen]
  have h4 : ((4 : Int)).toNat = 4 := rfl
  have h0 : ((0 : Int)).toNat = 0 := rfl
  rw [h4, h0, min_eq_left (by omega : (4 : Nat) ≤ 4 + y.length),
    min_eq_left (by omega : (0 : Nat) ≤ 4 + y.length), List.drop_zero,
    show (4 : Nat) = (toLEu n).length from (toLEu_length n).symm, List.take_left]

theorem pyDrop_prefix4 (n : Nat) (y : List Nat) :
    pyDrop (toLEu n ++ y) 4 = y := by
  unfold pyDrop pyBound
  rw [if_neg (by norm_num)]
  have hlen : (toLEu n ++ y).length = 4 + y.length := by
    simp [toLEu_length]
  rw [hlen]
  have h4 : ((4 : Int)).toNat = 4 := rfl
  rw [h4, min_eq_left (by omega),
    show (4 : Nat) = (toLEu n).length from (toLEu_length n).symm, List.drop_left]

/-! ## Claim theorems -/

/-- C3 (confirmed): the compression policy is asymmetric.  During packing
a file record is compressed (with a 4-byte little-endian uncompressed
length prefix prepended) exactly when `type = 2`, and every other type
value, including 1, stores the raw bytes unchanged; during unpacking the
slice is treated as a size-prefixed compressed payload for every nonzero
type and used verbatim only for type 0. -/
theorem c3_payload_policy :
    (∀ (zc : Nat → List Nat → List Nat) (t : Int) (data : List Nat), t ≠ 2 →
      packPayload zc t data = .ok data) ∧
    (∀ (zc : Nat → List Nat → List Nat) (data : List Nat),
      data.length < 4294967296 →
      packPayload zc 2 data = .ok (toLEu data.length ++ zc VFS_COMPRESSION_LEVEL data)) ∧
    (∀ (zd : List Nat → Nat → Except VfsErr (List Nat)) (t : Int) (sl : List Nat),
      t ≠ 0 →
      unpackPayload zd t sl = zd (pyDrop sl 4) (fromLEu (pySlice sl 0 4))) ∧
    (∀ (zd : List Nat → Nat → Except VfsErr (List Nat)) (sl : List Nat),
      unpackPayload zd 0 sl = .ok sl) := by
  refine ⟨?_, ?_, ?_, ?_⟩
  · intro zc t data ht
    unfold packPayload
    rw [if_neg ht]
  · intro zc data hlen
    unfold packPayload
    rw [if_pos rfl, if_pos hlen]
  · intro zd t sl ht
    unfold unpackPayload
    rw [if_pos ht]
  · intro zd sl
    unfold unpackPayload
    rw [if_neg (by simp)]

/-- Witness for C3: a record of type 1 is stored raw by the pack path yet
its slice is fed to the decompressor by the unpack path. -/
theorem c3_payload_policy_witness :
    packPayload zcId 1 [5, 6] = .ok [5, 6] ∧
    unpackPayload zdId 1 [9, 0, 0, 0, 7] =
      zdId (pyDrop [9, 0, 0, 0, 7] 4) (fromLEu (pySlice [9, 0, 0, 0, 7] 0 4)) ∧
    unpackPayload zdId 0 [7] = .ok [7] :=
  ⟨c3_payload_policy.1 zcId 1 [5, 6] (by decide),
   c3_payload_policy.2.2.1 zdId 1 [9, 0, 0, 0, 7] (by decide),
   c3_payload_policy.2.2.2 zdId [7]⟩

/-- C5 counterexample: on a stream with fewer than 4 bytes remaining,
`read_int` does not fail; it returns an integer (here 0 on an empty
stream), because Python `stream.read(4)` silently returns fewer bytes and
`int.from_bytes` accepts any length. -/
theorem c5_truncated_read_cex :
    read_int ⟨[], 0⟩ false = (0, ⟨[], 0⟩) ∧
    read_int ⟨[1, 2], 0⟩ true = (513, ⟨[1, 2], 2⟩) := by
  constructor <;> rfl

/-- C5 (corrected): on a stream with fewer than 4 bytes remaining at the
cursor, `read_int` returns the little-endian interpretation of exactly
the bytes that remain (signed or unsigned per the flag) and advances the
cursor to end of stream; it raises no error. -/
theorem c5_truncated_read_amended (s : ByteStream) (sgn : Bool)
    (hshort : s.data.length - s.pos < 4) :
    read_int s sgn =
      (if sgn then fromLEs (s.data.drop s.pos) else (fromLEu (s.data.drop s.pos) : Int),
       ⟨s.data, s.data.length⟩) := by
  unfold read_int readBytes
  rw [if_neg (by norm_num)]
  have htake : (s.data.drop s.pos).take ((4 : Int)).toNat = s.data.drop s.pos := by
    apply List.take_of_length_le
    rw [List.length_drop]
    omega
  rw [htake]
  have hmin : min (s.pos + ((4 : Int)).toNat) s.data.length = s.data.length := by
    rw [show ((4 : Int)).toNat = 4 from rfl]
    omega
  rw [hmin]

/-- Witness for C5: the amended statement evaluated on a 3-byte stream. -/
theorem c5_truncated_read_witness :
    read_int ⟨[1, 2, 3], 0⟩ false = (197121, ⟨[1, 2, 3], 3⟩) :=
  (c5_truncated_read_amended ⟨[1, 2, 3], 0⟩ false (by decide)).trans
    (by decide)

/-- C6 counterexample: a stream whose blob end offset (0) lies before the
cursor position (16) makes the computed blob length negative, yet
`read_vfs` raises nothing: Python `read` with a negative size consumes
the whole remainder, which becomes the blob. -/
theorem c6_blob_negative_cex :
    (read_int ⟨cex6data, 12⟩ false).1 - ((read_int ⟨cex6data, 12⟩ false).2.pos : Int) = -16 ∧
    read_vfs ⟨cex6data, 0⟩ = (.ok ⟨[], [], [7, 7, 7], [], []⟩, ⟨cex6data, 19⟩) := by
  constructor <;> rfl

/-- C6 (corrected): the blob is read from the position immediately after
the 4-byte end-offset field up to the declared absolute end offset, so
its length is the end offset minus that position (clamped by the bytes
available); but when that difference is negative the reader does not fail
with any error — it consumes every remaining byte of the stream as the
blob. -/
theorem c6_blob_length_amended (s : ByteStream) :
    (((read_int s false).2.pos : Int) ≤ (read_int s false).1 →
      (readBlob s).1.length =
        min ((read_int s false).1 - (read_int s false).2.pos).toNat
          (s.data.length - (read_int s false).2.pos)) ∧
    ((read_int s false).1 < ((read_int s false).2.pos : Int) →
      (readBlob s).1 = s.data.drop (read_int s false).2.pos) := by
  have hpos2 : (read_int s false).2.pos ≤ s.data.length := by
    unfold read_int readBytes
    rw [if_neg (by norm_num)]
    simp only
    omega
  have hdata : (read_int s false).2.data = s.data := by
    unfold read_int readBytes
    rw [if_neg (by norm_num)]
  constructor
  · intro hle
    unfold readBlob readBytes
    rw [if_neg (by omega)]
    simp only [List.length_take, List.length_drop, hdata]
  · intro hlt
    unfold readBlob readBytes
    rw [if_pos (by omega)]
    simp only [hdata]

/-- Witness for C6: the amended statement evaluated on a stream whose end
offset is 5, read from position 0 (blob length 5 − 4 = 1). -/
theorem c6_blob_length_witness :
    (readBlob ⟨toLEu 5 ++ [9, 9, 9], 0⟩).1.length = 1 :=
  ((c6_blob_length_amended ⟨toLEu 5 ++ [9, 9, 9], 0⟩).1 (by decide)).trans
    (by decide)

/-- C7 (confirmed): `build_path` of a root directory (parent −1) is the
single component `dnames[id]`; of any other directory it is the resolved
path of its parent followed by `dnames[id]`; and on the concrete 3-level
chain root → mid → leaf it yields root/mid/leaf. -/
theorem c7_build_path :
    (∀ (fuel : Nat) (dirs : List VfsDir) (dnames : List String) (d : VfsDir)
        (nm : String), d.parent = -1 → pyGet dnames d.id = some nm →
      build_path (fuel + 1) dirs dnames d = some [nm]) ∧
    (∀ (fuel : Nat) (dirs : List VfsDir) (dnames : List String) (d pd : VfsDir)
        (pp : List String) (nm : String), d.parent ≠ -1 →
      pyGet dirs d.parent = some pd →
      build_path fuel dirs dnames pd = some pp →
      pyGet dnames d.id = some nm →
      build_path (fuel + 1) dirs dnames d = some (pp ++ [nm])) ∧
    build_path 3 chainDirs chainNames ⟨0, 2, 1, -1, 0⟩ = some ["root", "mid", "leaf"] := by
  refine ⟨?_, ?_, by decide⟩
  · intro fuel dirs dnames d nm hroot hnm
    unfold build_path
    rw [if_pos hroot, hnm]
    rfl
  · intro fuel dirs dnames d pd pp nm hnroot hpd hpp hnm
    unfold build_path
    rw [if_neg hnroot, hpd]
    simp only [Option.bind_eq_bind, Option.some_bind]
    rw [hpp]
    simp only [Option.some_bind]
    rw [hnm]
    rfl

/-- Witness for C7: the recurrences evaluated on the concrete chain. -/
theorem c7_build_path_witness :
    build_path 1 chainDirs chainNames ⟨0, 0, -1, -1, 0⟩ = some ["root"] ∧
    build_path 2 chainDirs chainNames ⟨0, 1, 0, -1, 0⟩ = some ["root", "mid"] :=
  ⟨c7_build_path.1 0 chainDirs chainNames ⟨0, 0, -1, -1, 0⟩ "root" (by decide) (by decide),
   c7_build_path.2.1 1 chainDirs chainNames ⟨0, 1, 0, -1, 0⟩ ⟨0, 0, -1, -1, 0⟩
     ["root"] "mid" (by decide) (by decide) (by decide) (by decide)⟩

/-- C8 (confirmed): a stream whose first 4 bytes are not the literal tag
makes `read_vfs` fail immediately with the bad-magic error; the stream it
leaves behind is exactly the one `read_magic` produced, whose cursor has
advanced by at most 4 bytes — no further read is performed. -/
theorem c8_bad_magic (s : ByteStream)
    (hbad : (readBytes s 4).1 ≠ magicBytes) :
    read_vfs s = (.error .badMagic, (read_magic s).2) ∧
    (read_magic s).2.data = s.data ∧
    (read_magic s).2.pos = min (s.pos + 4) s.data.length := by
  refine ⟨?_, ?_, ?_⟩
  · unfold read_vfs read_magic
    dsimp only
    rw [decide_eq_false hbad]
    rfl
  · unfold read_magic readBytes
    rw [if_neg (by norm_num)]
  · unfold read_magic readBytes
    rw [if_neg (by norm_num)]
    rfl

/-- Witness for C8: a 6-byte stream starting with 4 zero bytes. -/
theorem c8_bad_magic_witness :
    read_vfs ⟨[0, 0, 0, 0, 5, 5], 0⟩ =
      (.error .badMagic, ⟨[0, 0, 0, 0, 5, 5], 4⟩) := by
  have h := c8_bad_magic ⟨[0, 0, 0, 0, 5, 5], 0⟩ (by decide)
  rw [h.1]
  have h2 : (read_magic ⟨[0, 0, 0, 0, 5, 5], 0⟩).2 = ⟨[0, 0, 0, 0, 5, 5], 4⟩ := by decide
  rw [h2]

/-- C9 (confirmed): a file packed with type 2 stores a payload whose
4-byte little-endian prefix is the original uncompressed length and whose
remainder is the compressed bytes; running the unpack payload decoder on
that payload recovers exactly the original bytes (given the compressor
round-trip contract satisfied by zlib). -/
theorem c9_type2_payload (zc : Nat → List Nat → List Nat)
    (zd : List Nat → Nat → Except VfsErr (List Nat))
    (hrt : ∀ d n, zd (zc VFS_COMPRESSION_LEVEL d) n = .ok d)
    (data : List Nat) (hlen : data.length < 4294967296) :
    ∃ payload, packPayload zc 2 data = .ok payload ∧
      payload = toLEu data.length ++ zc VFS_COMPRESSION_LEVEL data ∧
      pySlice payload 0 4 = toLEu data.length ∧
      fromLEu (pySlice payload 0 4) = data.length ∧
      unpackPayload zd 2 payload = .ok data := by
  refine ⟨toLEu data.length ++ zc VFS_COMPRESSION_LEVEL data, ?_, rfl, ?_, ?_, ?_⟩
  · unfold packPayload
    rw [if_pos rfl, if_pos hlen]
  · exact pySlice_prefix4 _ _
  · rw [pySlice_prefix4, fromLEu_toLEu hlen]
  · unfold unpackPayload
    rw [if_pos (by norm_num), pySlice_prefix4, pyDrop_prefix4,
      fromLEu_toLEu hlen, hrt]

/-- Witness for C9: the identity compressor pair on a 2-byte file. -/
theorem c9_type2_payload_witness :
    ∃ payload, packPayload zcId 2 [1, 2] = .ok payload ∧
      payload = toLEu ([1, 2] : List Nat).length ++ zcId VFS_COMPRESSION_LEVEL [1, 2] ∧
      pySlice payload 0 4 = toLEu ([1, 2] : List Nat).length ∧
      fromLEu (pySlice payload 0 4) = ([1, 2] : List Nat).length ∧
      unpackPayload zdId 2 payload = .ok [1, 2] :=
  c9_type2_payload zcId zdId (fun _ _ => rfl) [1, 2] (by decide)

/-- C10 (confirmed): whenever `write_vfs` succeeds in producing a stream
and the name tables match the record tables in length (with the name
strings ASCII and every field within its 32-bit range, both of which are
exactly the conditions under which `write_vfs` can succeed at all),
reading the stream back returns exactly the same directory table, file
table, blob, file names and directory names, consuming the whole
stream. -/
theorem c10_write_read_roundtrip (dirs : List VfsDir) (files : List VfsFile)
    (blob : List Nat) (fnames dnames : List String) (out : List Nat)
    (hfn : fnames.length = files.length) (hdn : dnames.length = dirs.length)
    (hw : write_vfs dirs files blob fnames dnames = .ok out) :
    read_vfs ⟨out, 0⟩ = (.ok ⟨dirs, files, blob, fnames, dnames⟩, ⟨out, out.length⟩) :=
  read_write_vfs hw hfn hdn

/-- Witness for C10: a one-directory, one-file archive serialized and
parsed back. -/
theorem c10_write_read_roundtrip_witness :
    read_vfs ⟨c10bytes, 0⟩ =
      (.ok ⟨[exDirRoot], [⟨0, 0, 0, 0, 0, 1⟩], [1], ["f"], ["d"]⟩,
       ⟨c10bytes, c10bytes.length⟩) :=
  c10_write_read_roundtrip [exDirRoot] [⟨0, 0, 0, 0, 0, 1⟩] [1] ["f"] ["d"]
    c10bytes (by decide) (by decide) (by decide)

/-- C2 (confirmed): the 4-byte count written immediately before the
file-name table is the number of file records (not of name entries), and
the count before the directory-name table is the number of directory
records; the reader reads exactly as many name strings as the count it
just read, with no independently encoded name-table count; concretely, an
archive written with two file records but a single `fnames` entry is read
back with exactly two name-entry reads, yielding `["a", ""]`. -/
theorem c2_name_table_counts :
    (∀ (dirs : List VfsDir) (files : List VfsFile) (blob : List Nat)
        (fnames dnames : List String) (out : List Nat),
      write_vfs dirs files blob fnames dnames = .ok out →
      ∃ hd fnb dnb, writeList write_str fnames = .ok fnb ∧
        writeList write_str dnames = .ok dnb ∧
        out = hd ++ toLEu files.length ++ fnb ++ toLEu dirs.length ++ dnb) ∧
    (∀ (n : Nat) (s s2 : ByteStream) (l : List String),
      readStrings n s = (.ok l, s2) → l.length = n) ∧
    write_vfs [] [⟨0, 0, 0, 0, 0, 0⟩, ⟨0, 0, 0, 0, 0, 0⟩] [] ["a"] [] = .ok c2bytes ∧
    (read_vfs ⟨c2bytes, 0⟩).1 =
      .ok ⟨[], [⟨0, 0, 0, 0, 0, 0⟩, ⟨0, 0, 0, 0, 0, 0⟩], [], ["a", ""], []⟩ := by
  refine ⟨?_, fun n s s2 l h => readStrings_ok_length h, by decide, by decide⟩
  intro dirs files blob fnames dnames out hw
  obtain ⟨cd, db, cf, fb, eb, cf2, fnb, cd2, dnb, hcd, hdb, hcf, hfb, heb, hcf2,
    hfnb, hcd2, hdnb, hout⟩ := write_vfs_ok_elim hw
  obtain ⟨hcf2v, -, -⟩ := write_int_ok_unsigned hcf2
  obtain ⟨hcd2v, -, -⟩ := write_int_ok_unsigned hcd2
  rw [Int.toNat_natCast] at hcf2v hcd2v
  refine ⟨magicBytes ++ cd ++ db ++ cf ++ fb ++ eb ++ blob, fnb, dnb, hfnb, hdnb, ?_⟩
  rw [hout, hcf2v, hcd2v]

/-- Witness for C2: the layout conjunct applied to the concrete archive
with two file records and one name entry. -/
theorem c2_name_table_counts_witness :
    ∃ hd fnb dnb, writeList write_str ["a"] = .ok fnb ∧
      writeList write_str ([] : List String) = .ok dnb ∧
      c2bytes = hd ++ toLEu ([⟨0, 0, 0, 0, 0, 0⟩, ⟨0, 0, 0, 0, 0, 0⟩] : List VfsFile).length ++
        fnb ++ toLEu ([] : List VfsDir).length ++ dnb :=
  c2_name_table_counts.1 [] [⟨0, 0, 0, 0, 0, 0⟩, ⟨0, 0, 0, 0, 0, 0⟩] [] ["a"] []
    c2bytes (by decide)

/-- C4 counterexample: two file records sharing the same id are processed
in stable order and the second receives offset 3, while the size sum over
files of strictly smaller id is 0, so the offset-equals-sum-of-smaller-ids
claim fails for archives with duplicate ids. -/
theorem c4_offsets_cex :
    ∃ b f1, compress zcId dupIdVfs dupFs = .ok b ∧
      b.files[1]? = some f1 ∧ f1 ∈ b.files ∧ f1.offset = 3 ∧
      ((b.files.filter (fun g => decide (g.id < f1.id))).map VfsFile.size).sum = 0 ∧
      (3 : Int) ≠ 0 := by
  refine ⟨⟨[exDirRoot], [⟨0, 0, 0, 0, 0, 3⟩, ⟨0, 0, 0, 0, 3, 3⟩], [1, 2, 3, 1, 2, 3],
    ["n"], ["d"]⟩, ⟨0, 0, 0, 0, 3, 3⟩, by decide, by decide, by decide, by decide,
    by decide, by decide⟩

/-! ## Sorting lemmas for the pack engine -/

theorem insertLe_perm (x : Nat × VfsFile) (l : List (Nat × VfsFile)) :
    (insertLe x l).Perm (x :: l) := by
  induction l with
  | nil => exact List.Perm.refl _
  | cons y ys ih =>
    unfold insertLe
    split
    · exact List.Perm.refl _
    · exact (List.Perm.cons y ih).trans (List.Perm.swap x y ys)

theorem sortLe_perm (l : List (Nat × VfsFile)) : (sortLe l).Perm l := by
  induction l with
  | nil => exact List.Perm.refl _
  | cons x xs ih =>
    exact (insertLe_perm x (sortLe xs)).trans (List.Perm.cons x ih)

theorem fileLe_total (a b : Nat × VfsFile) :
    fileLe a b = true ∨ fileLe b a = true := by
  unfold fileLe
  by_cases h : a.2.id = b.2.id
  · rw [if_pos h, if_pos h.symm]
    simp only [decide_eq_true_eq]
    omega
  · rw [if_neg h, if_neg (fun hc => h hc.symm)]
    simp only [decide_eq_true_eq]
    omega

theorem fileLe_trans {a b c : Nat × VfsFile} (hab : fileLe a b = true)
    (hbc : fileLe b c = true) : fileLe a c = true := by
  unfold fileLe at hab hbc ⊢
  by_cases h1 : a.2.id = b.2.id
  · by_cases h2 : b.2.id = c.2.id
    · rw [if_pos h1] at hab
      rw [if_pos h2] at hbc
      rw [if_pos (h1.trans h2)]
      simp only [decide_eq_true_eq] at hab hbc ⊢
      omega
    · rw [if_pos h1] at hab
      rw [if_neg h2] at hbc
      simp only [decide_eq_true_eq] at hab hbc
      rw [if_neg (show ¬a.2.id = c.2.id by omega)]
      simp only [decide_eq_true_eq]
      omega
  · rw [if_neg h1] at hab
    simp only [decide_eq_true_eq] at hab
    by_cases h2 : b.2.id = c.2.id
    · rw [if_pos h2] at hbc
      rw [if_neg (show ¬a.2.id = c.2.id by omega)]
      simp only [decide_eq_true_eq]
      omega
    · rw [if_neg h2] at hbc
      simp only [decide_eq_true_eq] at hbc
      rw [if_neg (show ¬a.2.id = c.2.id by omega)]
      simp only [decide_eq_true_eq]
      omega

theorem insertLe_sorted {x : Nat × VfsFile} {l : List (Nat × VfsFile)}
    (hl : l.Pairwise (fun a b => fileLe a b = true)) :
    (insertLe x l).Pairwise (fun a b => fileLe a b = true) := by
  induction l with
  | nil => simp [insertLe]
  | cons y ys ih =>
    unfold insertLe
    split
    · rename_i hxy
      refine List.Pairwise.cons ?_ hl
      intro z hz
      rcases List.mem_cons.mp hz with rfl | hz
      · exact hxy
      · exact fileLe_trans hxy (List.rel_of_pairwise_cons hl hz)
    · rename_i hxy
      have hyx : fileLe y x = true := by
        rcases fileLe_total x y with h | h
        · exact absurd h hxy
        · exact h
      refine List.Pairwise.cons ?_ (ih (List.Pairwise.sublist (List.sublist_cons_self y ys) hl))
      intro z hz
      have hz2 := (insertLe_perm x ys).mem_iff.mp hz
      rcases List.mem_cons.mp hz2 with rfl | hz2
      · exact hyx
      · exact List.rel_of_pairwise_cons hl hz2

theorem sortLe_sorted (l : List (Nat × VfsFile)) :
    (sortLe l).Pairwise (fun a b => fileLe a b = true) := by
  induction l with
  | nil => exact List.Pairwise.nil
  | cons x xs ih => exact insertLe_sorted ih

/-! ## Characterisation of the pack loop -/

theorem ok_bind {α β : Type} (a : α) (f : α → Except VfsErr β) :
    ((Except.ok a : Except VfsErr α) >>= f) = f a := rfl

theorem packOneData_ok_elim {zc : Nat → List Nat → List Nat} {dirs : List VfsDir}
    {dnames fnames : List String} {fs : List String → Option (List Nat)}
    {f : VfsFile} {p : List Nat}
    (h : packOneData zc dirs dnames fnames fs f = .ok p) :
    ∃ dd dp nm data, pyGet dirs f.dir = some dd ∧
      build_path dirs.length dirs dnames dd = some dp ∧
      pyGet fnames f.id = some nm ∧
      fs (dp ++ [nm]) = some data ∧
      packPayload zc f.type data = .ok p := by
  unfold packOneData at h
  obtain ⟨dd, hdd, h⟩ := except_bind_ok h
  obtain ⟨dp, hdp, h⟩ := except_bind_ok h
  obtain ⟨nm, hnm, h⟩ := except_bind_ok h
  obtain ⟨data, hdata, h⟩ := except_bind_ok h
  refine ⟨dd, dp, nm, data, ?_, ?_, ?_, ?_, h⟩
  · cases hg : pyGet dirs f.dir <;> rw [hg] at hdd <;> cases hdd <;> rfl
  · cases hg : build_path dirs.length dirs dnames dd <;> rw [hg] at hdp <;>
      cases hdp <;> rfl
  · cases hg : pyGet fnames f.id <;> rw [hg] at hnm <;> cases hnm <;> rfl
  · cases hg : fs (dp ++ [nm]) <;> rw [hg] at hdata <;> cases hdata <;> rfl

theorem optErr_some {α : Type} (e : VfsErr) (a : α) :
    optErr e (some a) = .ok a := rfl

theorem packLoop_eq_spec {zc : Nat → List Nat → List Nat} {dirs : List VfsDir}
    {dnames fnames : List String} {fs : List String → Option (List Nat)}
    {pay : VfsFile → List Nat} :
    ∀ {l : List (Nat × VfsFile)} (off : Nat),
    (∀ x ∈ l, packOneData zc dirs dnames fnames fs x.2 = .ok (pay x.2)) →
    packLoop zc dirs dnames fnames fs l off = .ok (packOuts pay l off, packBlob pay l) := by
  intro l
  induction l with
  | nil => intro off h; rfl
  | cons x rest ih =>
    intro off h
    obtain ⟨i, f⟩ := x
    obtain ⟨dd, dp, nm, data, hdd, hdp, hnm, hdata, hpp⟩ :=
      packOneData_ok_elim (h (i, f) (List.mem_cons_self _ _))
    unfold packLoop
    rw [hdd, optErr_some, ok_bind, hdp, optErr_some, ok_bind, hnm, optErr_some,
      ok_bind, hdata, optErr_some, ok_bind, hpp, ok_bind,
      ih (off + (pay f).length) (fun y hy => h y (List.mem_cons_of_mem _ hy)), ok_bind]
    rfl

theorem packLoop_ok_forall {zc : Nat → List Nat → List Nat} {dirs : List VfsDir}
    {dnames fnames : List String} {fs : List String → Option (List Nat)} :
    ∀ {l : List (Nat × VfsFile)} {off : Nat} {r},
    packLoop zc dirs dnames fnames fs l off = .ok r →
    ∀ x ∈ l, ∃ p, packOneData zc dirs dnames fnames fs x.2 = .ok p := by
  intro l
  induction l with
  | nil => intro off r h x hx; cases hx
  | cons y rest ih =>
    intro off r h x hx
    obtain ⟨i, f⟩ := y
    unfold packLoop at h
    obtain ⟨dd, hdd, h⟩ := except_bind_ok h
    obtain ⟨dp, hdp, h⟩ := except_bind_ok h
    obtain ⟨nm, hnm, h⟩ := except_bind_ok h
    obtain ⟨data, hdata, h⟩ := except_bind_ok h
    obtain ⟨p, hp, h⟩ := except_bind_ok h
    obtain ⟨r2, hr2, h⟩ := except_bind_ok h
    rcases List.mem_cons.mp hx with rfl | hx
    · refine ⟨p, ?_⟩
      unfold packOneData
      rw [hdd, ok_bind, hdp, ok_bind, hnm, ok_bind, hdata, ok_bind]
      exact hp
    · exact ih hr2 x hx

theorem packOuts_fst {pay : VfsFile → List Nat} :
    ∀ (l : List (Nat × VfsFile)) (off : Nat),
    (packOuts pay l off).map Prod.fst = l.map Prod.fst := by
  intro l
  induction l with
  | nil => intro off; rfl
  | cons x rest ih =>
    intro off
    obtain ⟨i, f⟩ := x
    unfold packOuts
    simp only [List.map_cons]
    rw [ih]

theorem packBlob_length {pay : VfsFile → List Nat} :
    ∀ (l : List (Nat × VfsFile)),
    (packBlob pay l).length = (l.map (fun x => (pay x.2).length)).sum := by
  intro l
  induction l with
  | nil => rfl
  | cons x rest ih =>
    obtain ⟨i, f⟩ := x
    unfold packBlob
    simp only [List.map_cons, List.sum_cons, List.length_append, ih]

theorem packOuts_size_sum {pay : VfsFile → List Nat} :
    ∀ (l : List (Nat × VfsFile)) (off : Nat),
    ((packOuts pay l off).map (fun y => y.2.size)).sum =
      ((packBlob pay l).length : Int) := by
  intro l
  induction l with
  | nil => intro off; rfl
  | cons x rest ih =>
    intro off
    obtain ⟨i, f⟩ := x
    unfold packOuts packBlob
    simp only [List.map_cons, List.sum_cons, List.length_append, ih]
    push_cast
    ring

theorem packOuts_mem {pay : VfsFile → List Nat} :
    ∀ {l : List (Nat × VfsFile)} {off : Nat} {x : Nat × VfsFile},
    x ∈ packOuts pay l off →
    ∃ f o, (x.1, f) ∈ l ∧
      x.2 = { f with offset := ((o : Nat) : Int), size := ((pay f).length : Int) } ∧
      off ≤ o ∧
      ((packBlob pay l).drop (o - off)).take (pay f).length = pay f ∧
      (o - off) + (pay f).length ≤ (packBlob pay l).length := by
  intro l
  induction l with
  | nil => intro off x hx; cases hx
  | cons y rest ih =>
    intro off x hx
    obtain ⟨i, f⟩ := y
    unfold packOuts at hx
    rcases List.mem_cons.mp hx with rfl | hx
    · refine ⟨f, off, List.mem_cons_self _ _, rfl, le_refl _, ?_, ?_⟩
      · rw [Nat.sub_self]
        unfold packBlob
        simp only [List.drop_zero]
        rw [show (pay f).length = ((pay f).length) from rfl]
        exact List.take_left _ _
      · unfold packBlob
        simp only [Nat.sub_self, List.length_append]
        omega
    · obtain ⟨g, o, hmem, hx2, hle, hslice, hbound⟩ := ih hx
      refine ⟨g, o, List.mem_cons_of_mem _ hmem, hx2, by omega, ?_, ?_⟩
      · unfold packBlob
        have harith : o - off = (pay f).length + (o - (off + (pay f).length)) := by
          omega
        rw [harith, List.drop_append]
        exact hslice
      · unfold packBlob
        simp only [List.length_append]
        omega

theorem packOuts_id_eq {pay : VfsFile → List Nat} :
    ∀ {l : List (Nat × VfsFile)} {off : Nat},
    (packOuts pay l off).map (fun y => y.2.id) = l.map (fun y => y.2.id) := by
  intro l
  induction l with
  | nil => intro off; rfl
  | cons y rest ih =>
    intro off
    obtain ⟨i, f⟩ := y
    unfold packOuts
    simp only [List.map_cons]
    rw [ih]

theorem packOuts_offset_sum {pay : VfsFile → List Nat} :
    ∀ {l : List (Nat × VfsFile)} {off : Nat},
    l.Pairwise (fun a b => fileLe a b = true) →
    (l.map (fun y => y.2.id)).Nodup →
    ∀ x ∈ packOuts pay l off, x.2.offset = (off : Int) +
      (((packOuts pay l off).filter (fun y => decide (y.2.id < x.2.id))).map
        (fun y => y.2.size)).sum := by
  intro l
  induction l with
  | nil => intro off hs hn x hx; cases hx
  | cons y rest ih =>
    intro off hs hn x hx
    obtain ⟨i, f⟩ := y
    have hrest_gt : ∀ z ∈ packOuts pay rest (off + (pay f).length), f.id < z.2.id := by
      intro z hz
      obtain ⟨g, o, hmem, hz2, -, -, -⟩ := packOuts_mem hz
      have hle : fileLe (i, f) (z.1, g) = true :=
        List.rel_of_pairwise_cons hs hmem
      have hne : f.id ≠ g.id := by
        intro hc
        have h1 : f.id ∈ rest.map (fun y => y.2.id) := by
          rw [hc]
          exact List.mem_map.mpr ⟨(z.1, g), hmem, rfl⟩
        simp only [List.map_cons, List.nodup_cons] at hn
        exact hn.1 h1
      unfold fileLe at hle
      rw [if_neg hne] at hle
      simp only [decide_eq_true_eq] at hle
      rw [hz2]
      exact hle
    unfold packOuts at hx ⊢
    rcases List.mem_cons.mp hx with rfl | hx
    · simp only
      rw [List.filter_cons_of_neg (by simp), List.filter_eq_nil_iff.mpr ?_]
      · simp
      · intro z hz
        have := hrest_gt z hz
        simp only [decide_eq_true_eq]
        omega
    · have hxgt : f.id < x.2.id := hrest_gt x hx
      have hrec := ih (List.Pairwise.sublist (List.sublist_cons_self _ _) hs)
        (by simp only [List.map_cons, List.nodup_cons] at hn; exact hn.2) x hx
      rw [List.filter_cons_of_pos (by simp only [decide_eq_true_eq]; omega)]
      simp only [List.map_cons, List.sum_cons]
      rw [hrec]
      push_cast
      ring

/-! ## Keyed lookup and permutation lemmas for the rebuilt file table -/

theorem find?_key_unique :
    ∀ {l : List (Nat × VfsFile)}, (l.map Prod.fst).Nodup →
    ∀ {i : Nat} {u : VfsFile}, (i, u) ∈ l →
    l.find? (fun q => decide (q.1 = i)) = some (i, u) := by
  intro l
  induction l with
  | nil => intro _ i u hmem; cases hmem
  | cons y t ih =>
    intro hnd i u hmem
    obtain ⟨j, w⟩ := y
    simp only [List.map_cons, List.nodup_cons] at hnd
    rcases List.mem_cons.mp hmem with heq | hmem2
    · cases heq
      rw [List.find?_cons_of_pos _ (by simp)]
    · have hji : j ≠ i := by
        intro hc
        exact hnd.1 (hc ▸ List.mem_map.mpr ⟨(i, u), hmem2, rfl⟩)
      rw [List.find?_cons_of_neg _ (by simpa using hji)]
      exact ih hnd.2 hmem2

theorem keyed_perm :
    ∀ {l out : List (Nat × VfsFile)},
    (out.map Prod.fst).Perm (l.map Prod.fst) →
    (l.map Prod.fst).Nodup →
    (l.map (fun x =>
      (((out.find? (fun q => decide (q.1 = x.1))).map Prod.snd).getD x.2))).Perm
      (out.map Prod.snd) := by
  intro l
  induction l with
  | nil =>
    intro out hperm _
    have h1 : out.map Prod.fst = [] := hperm.eq_nil
    rw [List.map_eq_nil_iff.mp h1]
    exact List.Perm.refl _
  | cons x t ih =>
    intro out hperm hnd
    obtain ⟨i, f⟩ := x
    simp only [List.map_cons, List.nodup_cons] at hnd
    have hi_mem : i ∈ out.map Prod.fst := hperm.mem_iff.mpr (by simp)
    obtain ⟨y, hy, hyfst⟩ := List.mem_map.mp hi_mem
    obtain ⟨i2, u⟩ := y
    cases hyfst
    have hout_nd : (out.map Prod.fst).Nodup :=
      hperm.nodup_iff.mpr (List.nodup_cons.mpr hnd)
    obtain ⟨s1, s2, houts⟩ := List.append_of_mem hy
    have hperm_erase : out.Perm ((i2, u) :: (s1 ++ s2)) := by
      rw [houts]
      exact List.perm_middle
    have hmem_of : ∀ z, z ∈ s1 ++ s2 → z ∈ out := by
      intro z hz
      rw [houts]
      rcases List.mem_append.mp hz with h | h
      · exact List.mem_append.mpr (Or.inl h)
      · exact List.mem_append.mpr (Or.inr (List.mem_cons_of_mem _ h))
    have hfst_erase : (((s1 ++ s2)).map Prod.fst).Perm (t.map Prod.fst) :=
      ((hperm_erase.map Prod.fst).symm.trans hperm).cons_inv
    have herase_nd : (((s1 ++ s2)).map Prod.fst).Nodup :=
      hfst_erase.nodup_iff.mpr hnd.2
    have hhead : out.find? (fun q => decide (q.1 = i2)) = some (i2, u) :=
      find?_key_unique hout_nd hy
    have hmapeq : (t.map (fun x =>
        (((out.find? (fun q => decide (q.1 = x.1))).map Prod.snd).getD x.2))) =
        (t.map (fun x =>
        ((((s1 ++ s2).find? (fun q => decide (q.1 = x.1))).map Prod.snd).getD x.2))) := by
      apply List.map_congr_left
      intro a ha
      have ha_mem_fst : a.1 ∈ (s1 ++ s2).map Prod.fst :=
        hfst_erase.mem_iff.mpr (List.mem_map.mpr ⟨a, ha, rfl⟩)
      obtain ⟨z, hz, hzfst⟩ := List.mem_map.mp ha_mem_fst
      obtain ⟨a1, w⟩ := z
      cases hzfst
      have h1 : out.find? (fun q => decide (q.1 = a.1)) = some (a.1, w) :=
        find?_key_unique hout_nd (hmem_of _ hz)
      have h2 : (s1 ++ s2).find? (fun q => decide (q.1 = a.1)) = some (a.1, w) :=
        find?_key_unique herase_nd hz
      rw [h1, h2]
    have hih := ih hfst_erase hnd.2
    rw [List.map_cons, hhead, hmapeq]
    simp only [Option.map_some', Option.getD_some]
    exact (hih.cons u).trans (hperm_erase.map Prod.snd).symm

theorem compress_ok_elim {zc : Nat → List Nat → List Nat} {v : Vfs}
    {fs : List String → Option (List Nat)} {b : Vfs}
    (h : compress zc v fs = .ok b) :
    ∃ out blob bytes,
      packLoop zc v.dirs v.dnames v.fnames fs (sortLe v.files.enum) 0 = .ok (out, blob) ∧
      write_vfs v.dirs
        (v.files.enum.map (fun p =>
          (((out.find? (fun q => decide (q.1 = p.1))).map Prod.snd).getD p.2)))
        blob v.fnames v.dnames = .ok bytes ∧
      b = ⟨v.dirs,
           v.files.enum.map (fun p =>
             (((out.find? (fun q => decide (q.1 = p.1))).map Prod.snd).getD p.2)),
           blob, v.fnames, v.dnames⟩ := by
  unfold compress at h
  obtain ⟨r, hr, h⟩ := except_bind_ok h
  obtain ⟨out, blob⟩ := r
  obtain ⟨bytes, hbytes, h⟩ := except_bind_ok h
  cases h
  exact ⟨out, blob, bytes, hr, hbytes, rfl⟩

theorem compress_spec {zc : Nat → List Nat → List Nat} {v : Vfs}
    {fs : List String → Option (List Nat)} {b : Vfs}
    (h : compress zc v fs = .ok b) :
    ∃ pay : VfsFile → List Nat,
      (∀ x ∈ sortLe v.files.enum,
        packOneData zc v.dirs v.dnames v.fnames fs x.2 = .ok (pay x.2)) ∧
      b.dirs = v.dirs ∧ b.fnames = v.fnames ∧ b.dnames = v.dnames ∧
      b.blob = packBlob pay (sortLe v.files.enum) ∧
      b.files = v.files.enum.map (fun p =>
        ((((packOuts pay (sortLe v.files.enum) 0).find?
            (fun q => decide (q.1 = p.1))).map Prod.snd).getD p.2)) := by
  obtain ⟨out, blob, bytes, hloop, hbytes, hb⟩ := compress_ok_elim h
  have hpay : ∀ x ∈ sortLe v.files.enum,
      packOneData zc v.dirs v.dnames v.fnames fs x.2 =
        .ok (((packOneData zc v.dirs v.dnames v.fnames fs x.2).toOption).getD []) := by
    intro x hx
    obtain ⟨p, hp⟩ := packLoop_ok_forall hloop x hx
    simp only [hp, Except.toOption, Option.getD_some]
  have hspec := @packLoop_eq_spec zc v.dirs v.dnames v.fnames fs
    (fun f => ((packOneData zc v.dirs v.dnames v.fnames fs f).toOption).getD [])
    (sortLe v.files.enum) 0 hpay
  rw [hloop] at hspec
  injection hspec with hspec
  have hout : out = packOuts
      (fun f => ((packOneData zc v.dirs v.dnames v.fnames fs f).toOption).getD [])
      (sortLe v.files.enum) 0 := congrArg Prod.fst hspec
  have hblob : blob = packBlob
      (fun f => ((packOneData zc v.dirs v.dnames v.fnames fs f).toOption).getD [])
      (sortLe v.files.enum) := congrArg Prod.snd hspec
  exact ⟨fun f => ((packOneData zc v.dirs v.dnames v.fnames fs f).toOption).getD [],
    hpay, by rw [hb], by rw [hb], by rw [hb], by rw [hb]; exact hblob,
    by rw [hb]; rw [hout]⟩

/-- C4 (corrected): after a successful pack, the rebuilt blob's length
always equals the sum of all file size fields; and when the archive's
file ids are pairwise distinct — the restriction the duplicate-id
counterexample forces on the offset clause only — every file record's
offset equals the sum of the size fields of all files with smaller id. -/
theorem c4_offsets_amended (zc : Nat → List Nat → List Nat) (v : Vfs)
    (fs : List String → Option (List Nat)) (b : Vfs)
    (hok : compress zc v fs = .ok b) :
    ((v.files.map VfsFile.id).Nodup →
      ∀ f ∈ b.files, f.offset =
        ((b.files.filter (fun g => decide (g.id < f.id))).map VfsFile.size).sum) ∧
    (b.blob.length : Int) = (b.files.map VfsFile.size).sum := by
  obtain ⟨pay, hpay, hdirs, hfn, hdn, hblob, hfiles⟩ := compress_spec hok
  have hfstperm : ((packOuts pay (sortLe v.files.enum) 0).map Prod.fst).Perm
      (v.files.enum.map Prod.fst) := by
    rw [packOuts_fst]
    exact (sortLe_perm _).map _
  have hnodup_fst : (v.files.enum.map Prod.fst).Nodup := by
    rw [List.enum_map_fst]
    exact List.nodup_range _
  have hperm : b.files.Perm ((packOuts pay (sortLe v.files.enum) 0).map Prod.snd) := by
    rw [hfiles]
    exact keyed_perm hfstperm hnodup_fst
  have hsorted : (sortLe v.files.enum).Pairwise (fun a b => fileLe a b = true) :=
    sortLe_sorted _
  have hsum_out : ((packOuts pay (sortLe v.files.enum) 0).map
      (fun y => y.2.size)).sum = ((packBlob pay (sortLe v.files.enum)).length : Int) :=
    packOuts_size_sum _ _
  constructor
  · intro hids f hf
    have hids_l : ((sortLe v.files.enum).map (fun y => y.2.id)).Nodup := by
      have h1 : ((sortLe v.files.enum).map (fun y : Nat × VfsFile => y.2.id)).Perm
          (v.files.enum.map (fun y : Nat × VfsFile => y.2.id)) :=
        (sortLe_perm _).map _
      refine h1.nodup_iff.mpr ?_
      have h2 : v.files.enum.map (fun y : Nat × VfsFile => y.2.id) =
          v.files.map VfsFile.id := by
        rw [show (fun y : Nat × VfsFile => y.2.id) = (VfsFile.id ∘ Prod.snd) from rfl,
          ← List.map_map, List.enum_map_snd]
      rw [h2]
      exact hids
    have hf2 : f ∈ (packOuts pay (sortLe v.files.enum) 0).map Prod.snd :=
      hperm.mem_iff.mp hf
    obtain ⟨x, hx, hxf⟩ := List.mem_map.mp hf2
    subst hxf
    have hoff := packOuts_offset_sum hsorted hids_l x hx
    have hp1 : (b.files.filter (fun g => decide (g.id < x.2.id))).Perm
        (((packOuts pay (sortLe v.files.enum) 0).map Prod.snd).filter
          (fun g => decide (g.id < x.2.id))) :=
      hperm.filter _
    have hp2 : (((packOuts pay (sortLe v.files.enum) 0).map Prod.snd).filter
        (fun g => decide (g.id < x.2.id))) =
        ((packOuts pay (sortLe v.files.enum) 0).filter
          (fun y => decide (y.2.id < x.2.id))).map Prod.snd := by
      rw [List.filter_map]
      rfl
    have hsum := (hp1.map VfsFile.size).sum_eq
    rw [hp2, List.map_map] at hsum
    rw [hoff, hsum]
    simp only [Nat.cast_zero, zero_add]
    rfl
  · have h1 : (b.files.map VfsFile.size).sum =
        (((packOuts pay (sortLe v.files.enum) 0).map Prod.snd).map VfsFile.size).sum :=
      (hperm.map VfsFile.size).sum_eq
    rw [h1, List.map_map, hblob]
    rw [← hsum_out]
    rfl

/-- Witness for C4: a two-file archive with distinct ids 1 and 0; the
id-0 file is packed first (offset 0, size 1), the id-1 file second
(offset 1, size 2), and the blob has length 3. -/
theorem c4_offsets_amended_witness :
    (∀ f ∈ ([⟨0, 1, 0, 0, 1, 2⟩, ⟨0, 0, 0, 0, 0, 1⟩] : List VfsFile), f.offset =
      ((([⟨0, 1, 0, 0, 1, 2⟩, ⟨0, 0, 0, 0, 0, 1⟩] : List VfsFile).filter
        (fun g => decide (g.id < f.id))).map VfsFile.size).sum) ∧
    ((([7, 8, 8] : List Nat).length : Int) =
      (([⟨0, 1, 0, 0, 1, 2⟩, ⟨0, 0, 0, 0, 0, 1⟩] : List VfsFile).map VfsFile.size).sum) := by
  have h := c4_offsets_amended zcId
    ⟨[exDirRoot], [⟨0, 1, 0, 0, 0, 0⟩, ⟨0, 0, 0, 0, 0, 0⟩], [], ["a", "b"], ["d"]⟩
    (fun p => if p = ["d", "a"] then some [7] else
      if p = ["d", "b"] then some [8, 8] else none)
    ⟨[exDirRoot], [⟨0, 1, 0, 0, 1, 2⟩, ⟨0, 0, 0, 0, 0, 1⟩], [7, 8, 8], ["a", "b"], ["d"]⟩
    (by decide)
  exact ⟨h.1 (by decide), h.2⟩

/-! ## Characterisation of the unpack engine and the modelled filesystem -/

